import Mathlib

/-!
Verification of the geometry utilities, detection post-processing and
recognition post-processing of the docOCR repository, against its
natural-language specification.

The Python code is shallowly embedded: numpy float arrays become lists of
rationals (`List ℚ`), images become lists of pixel rows, fallible functions
return `Except`.  Calls into external libraries (OpenCV contour extraction,
affine warps) are modelled as oracle parameters, since their code is not part
of the repository.  Trigonometric and exponential values (np.cos, np.sin,
torch.softmax) are modelled over the real numbers with Mathlib's exact
`Real.cos` / `Real.sin` / `Real.exp`.
-/

/-- Model of a 2-d numpy array as handed to `extract_crops` / `extract_rcrops`:
the dtype flag models the `_boxes.dtype != np.int` test, `cols` is `shape[1]`
(meaningful even when there are zero rows) and `data` the rows. -/
structure NpArray where
  dtypeIsInt : Bool
  cols : Nat
  data : List (List ℚ)

/-- Normalisation of one slice endpoint, numpy style: negative indices count
from the end, then the index is clamped to `[0, n]`. -/
def npIdx (n : Nat) (a : Int) : Nat :=
  (min (if a < 0 then a + n else a) n).toNat

/-- `l[a:b]` for integer slice endpoints, numpy semantics. -/
def npSlice (l : List α) (a b : Int) : List α :=
  (l.drop (npIdx l.length a)).take (npIdx l.length b - npIdx l.length a)

/-- `img.shape[0]` of a row-major image. -/
def imgShape0 (img : List (List α)) : Nat := img.length

/-- `img.shape[1]` of a row-major image. -/
def imgShape1 (img : List (List α)) : Nat := (img.headD []).length

/-- `img[box[1]:box[3], box[0]:box[2]]`, the slice taken by `extract_crops`. -/
def cropSlice (img : List (List α)) (b : List Int) : List (List α) :=
  (npSlice img (b.getD 1 0) (b.getD 3 0)).map fun row =>
    npSlice row (b.getD 0 0) (b.getD 2 0)

/-- numpy `round`: round half to even (banker's rounding). -/
def roundHalfEven (q : ℚ) : Int :=
  if q - ⌊q⌋ < 1/2 then ⌊q⌋
  else if 1/2 < q - ⌊q⌋ then ⌊q⌋ + 1
  else if ⌊q⌋ % 2 = 0 then ⌊q⌋ else ⌊q⌋ + 1

/-- `_boxes[:, [0, 2]] *= img.shape[1]; _boxes[:, [1, 3]] *= img.shape[0]`
applied to one 4-column row. -/
def scaleRow (w h : ℚ) (r : List ℚ) : List ℚ :=
  [r.getD 0 0 * w, r.getD 1 0 * h, r.getD 2 0 * w, r.getD 3 0 * h]

/-- The integer pixel boxes `extract_crops` slices with: for a float-dtype
array, project relative coordinates, round, and apply `_boxes[2:] += 1`
(note: the source increments whole ROWS from index 2 on, not the max-coordinate
columns); an int-dtype array is used as is. -/
def projectBoxes (img : List (List α)) (boxes : NpArray) : List (List Int) :=
  if boxes.dtypeIsInt then
    boxes.data.map fun r => r.map fun q => ⌊q⌋
  else
    let scaled := boxes.data.map fun r =>
      (scaleRow (imgShape1 img) (imgShape0 img) r).map roundHalfEven
    scaled.take 2 ++ (scaled.drop 2).map fun r => r.map fun z => z + 1

/-- Embedding of `doctr.models._utils.extract_crops`. -/
def extract_crops (img : List (List α)) (boxes : NpArray) :
    Except String (List (List (List α))) :=
  if boxes.data.length = 0 then Except.ok []
  else if boxes.cols ≠ 4 then
    Except.error "boxes are expected to be relative and in order (xmin, ymin, xmax, ymax)"
  else Except.ok ((projectBoxes img boxes).map fun b => cropSlice img b)

/-- Column scaling of `extract_rcrops` on one 5-column row
(the angle column is untouched). -/
def rscaleRow (w h : ℚ) (r : List ℚ) : List ℚ :=
  [r.getD 0 0 * w, r.getD 1 0 * h, r.getD 2 0 * w, r.getD 3 0 * h, r.getD 4 0]

/-- Embedding of `doctr.models._utils.extract_rcrops`.  The OpenCV calls
(`cv2.boxPoints`, `cv2.getAffineTransform`, `cv2.warpAffine`) are external
library code and are modelled by the `warp` oracle, which receives the
projected box and the batch-global clockwise flag. -/
def extract_rcrops (warp : List ℚ → Bool → List (List α))
    (img : List (List α)) (boxes : NpArray) :
    Except String (List (List (List α))) :=
  if boxes.data.length = 0 then Except.ok []
  else if boxes.cols ≠ 5 then
    Except.error "boxes are expected to be relative and in order (x, y, w, h, alpha)"
  else
    let pboxes :=
      if boxes.dtypeIsInt then boxes.data
      else boxes.data.map fun r => rscaleRow (imgShape1 img) (imgShape0 img) r
    let clockwise :=
      decide ((boxes.data.map fun r => r.getD 2 0).sum > (boxes.data.map fun r => r.getD 3 0).sum)
    Except.ok (pboxes.map fun b => warp b clockwise)

/-- The per-row rotation of `rotate_boxes`: straight box columns
`(xmin, ymin, xmax, ymax)` are read positionally, the center is rotated about
the page center `(0.5, 0.5)` by the matrix `[[cos, -sin], [sin, cos]]`, and the
output row is `(x_center, y_center, width, height, angle)`. -/
noncomputable def rotRow (angle : ℝ) (b : List ℝ) : List ℝ :=
  let c := Real.cos (angle * Real.pi / 180)
  let s := Real.sin (angle * Real.pi / 180)
  let xu := (b.getD 0 0 + b.getD 2 0) / 2
  let yu := (b.getD 1 0 + b.getD 3 0) / 2
  let w := b.getD 2 0 - b.getD 0 0
  let h := b.getD 3 0 - b.getD 1 0
  [1/2 + (c * (xu - 1/2) - s * (yu - 1/2)),
   1/2 + (s * (xu - 1/2) + c * (yu - 1/2)),
   w, h, angle]

/-- Embedding of `doctr.models._utils.rotate_boxes`. -/
noncomputable def rotate_boxes (boxes : List (List ℝ)) (angle min_angle : ℝ) :
    List (List ℝ) :=
  if |angle| < min_angle ∨ |angle| > 90 - min_angle then boxes
  else boxes.map (rotRow angle)

/-- Mathematical inverse of `rotRow`: rotate the center back by the angle
stored in column 4 (the matrix transpose, i.e. the rotation by the negated
angle) and rebuild `(xmin, ymin, xmax, ymax)` from center, width and height. -/
noncomputable def unrotate_row (r : List ℝ) : List ℝ :=
  let a := r.getD 4 0
  let c := Real.cos (a * Real.pi / 180)
  let s := Real.sin (a * Real.pi / 180)
  let xu := 1/2 + (c * (r.getD 0 0 - 1/2) + s * (r.getD 1 0 - 1/2))
  let yu := 1/2 + (-s * (r.getD 0 0 - 1/2) + c * (r.getD 1 0 - 1/2))
  [xu - r.getD 2 0 / 2, yu - r.getD 3 0 / 2,
   xu + r.getD 2 0 / 2, yu + r.getD 3 0 / 2]

/-- numpy float scalar: either NaN or an exact real value.  `np.std` and
`np.mean` of an empty array are NaN. -/
inductive NpFloat where
  | nan : NpFloat
  | val : ℝ → NpFloat

/-- IEEE comparison `a > c`: false whenever `a` is NaN. -/
def npGT (a : NpFloat) (c : ℝ) : Prop :=
  match a with
  | NpFloat.nan => False
  | NpFloat.val x => x > c

/-- Unary minus on a numpy float scalar; NaN propagates. -/
def npNeg : NpFloat → NpFloat
  | NpFloat.nan => NpFloat.nan
  | NpFloat.val x => NpFloat.val (-x)

/-- `c + a` on a numpy float scalar; NaN propagates. -/
def npAdd (c : ℝ) : NpFloat → NpFloat
  | NpFloat.nan => NpFloat.nan
  | NpFloat.val x => NpFloat.val (c + x)

/-- `np.mean`, NaN on an empty array. -/
noncomputable def npMean (l : List ℝ) : NpFloat :=
  if l.length = 0 then NpFloat.nan else NpFloat.val (l.sum / l.length)

/-- `np.std` (population standard deviation), NaN on an empty array. -/
noncomputable def npStd (l : List ℝ) : NpFloat :=
  if l.length = 0 then NpFloat.nan
  else NpFloat.val (Real.sqrt (((l.map fun x => (x - l.sum / l.length) ^ 2).sum) / l.length))

/-- One `cv2.minAreaRect` result `(_, (w, h), alpha)`; the center is unused by
`get_bitmap_angle`. -/
structure MinRect where
  w : ℝ
  h : ℝ
  alpha : ℝ

open Classical in
/-- Embedding of `doctr.models._utils.get_bitmap_angle`.  The OpenCV steps
(`cv2.findContours` on the binarized map, sorting contours by area, and
`cv2.minAreaRect`) are external library code; the function is modelled on
their result, the area-sorted list of min-area rectangles `rects`. -/
noncomputable def get_bitmap_angle (rects : List MinRect) (n_ct : Nat) (std_max : ℝ) :
    NpFloat :=
  let rs := rects.take n_ct
  let angles := rs.map MinRect.alpha
  let widths := rs.map MinRect.w
  let heights := rs.map MinRect.h
  if npGT (npStd angles) std_max then NpFloat.val 0
  else
    let angle := npNeg (npMean angles)
    if widths.sum < heights.sum then npAdd 90 angle else angle

/-- The end-of-sequence marker string `"<eos>"` that the recognition
post-processors split on, as a character list. -/
def eosMarker : List Char := ['<', 'e', 'o', 's', '>']

/-- Scan of `torch.argmax` over one class vector: `bi`/`bv` are the best index
and value so far, `i` the index of the list head; a strictly greater value
replaces the best, so the FIRST maximal index is returned. -/
def argmaxFrom (bi : Nat) (bv : ℚ) (i : Nat) : List ℚ → Nat
  | [] => bi
  | x :: xs => if x > bv then argmaxFrom i x (i + 1) xs else argmaxFrom bi bv (i + 1) xs

/-- `torch.argmax` on one per-timestep logit vector (index of the first
maximal entry; 0 on the empty vector, which torch rejects). -/
def argmaxIdx : List ℚ → Nat
  | [] => 0
  | x :: xs => argmaxFrom 0 x 1 xs

/-- `torch.softmax` on one logit vector, with exact real exponentials. -/
noncomputable def softmax (v : List ℚ) : List ℝ :=
  v.map fun x => Real.exp (x : ℝ) / ((v.map fun y => Real.exp (y : ℝ)).sum)

/-- The gathered per-timestep probability: the softmax entry at the argmax
index, `torch.gather(torch.softmax(logits, -1), -1, out_idxs)` per timestep. -/
noncomputable def gatherProb (v : List ℚ) : ℝ :=
  (softmax v).getD (argmaxIdx v) 0

/-- `torch.min` along a nonempty dimension (torch raises on an empty one;
the 0 default is never reached on inputs of positive length). -/
noncomputable def listMin : List ℝ → ℝ
  | [] => 0
  | x :: xs => xs.foldl min x

/-- Modelled from the spec: the `_embedding` attribute of the recognition
post-processor base classes (`RecognitionPostProcessor` in
`doctr/models/recognition/core.py` and `_PARSeqPostProcessor`, both absent
from the sources): the ordered vocabulary characters, "plus a reserved
end-of-sequence marker appended at index = vocab length". -/
def embeddingOf (vocab : List Char) : List (List Char) :=
  (vocab.map fun c => [c]) ++ [eosMarker]

/-- `''.join(self._embedding[idx] for idx in encoded_seq)`. -/
def decodeSeq (vocab : List Char) (idxs : List Nat) : List Char :=
  (idxs.map fun i => (embeddingOf vocab).getD i []).flatten

/-- Python `s.split(sep)[0]` for a nonempty separator: the characters strictly
before the first (leftmost) occurrence of `sep`, or all of `s` when `sep` does
not occur. -/
def splitFirst (sep : List Char) : List Char → List Char
  | [] => []
  | c :: rest => if sep.isPrefixOf (c :: rest) then [] else c :: splitFirst sep rest

/-- The decoded word of one sequence: argmax indices, embedding lookup, join,
split at the first `"<eos>"`. -/
def wordOf (vocab : List Char) (seq : List (List ℚ)) : List Char :=
  splitFirst eosMarker (decodeSeq vocab (seq.map argmaxIdx))

/-- The confidence of one sequence: minimum over ALL timesteps of the gathered
argmax probability (`probs.min(dim=1).values`). -/
noncomputable def confOf (seq : List (List ℚ)) : ℝ :=
  listMin (seq.map gatherProb)

/-- Embedding of `SARPostProcessor.__call__` and `PARSeqPostProcessor.__call__`
(their bodies are identical): per sequence, the pair of the decoded word and
the minimum gathered softmax probability. -/
noncomputable def recognitionPostProcess (vocab : List Char)
    (logits : List (List (List ℚ))) : List (List Char × ℝ) :=
  logits.map fun seq => (wordOf vocab seq, confOf seq)

/-- The claim's confidence formula: the position of the first EOS argmax
(sequence length when there is none). -/
def firstEosPos (vocab : List Char) (idxs : List Nat) : Nat :=
  (idxs.takeWhile fun i => i ≠ vocab.length).length

/-- The claim's confidence formula: minimum of the gathered probabilities over
the timesteps up to AND including the first EOS position only. -/
noncomputable def specConfUpToEos (vocab : List Char) (seq : List (List ℚ)) : ℝ :=
  listMin ((seq.take (firstEosPos vocab (seq.map argmaxIdx) + 1)).map gatherProb)

/-- Cross product term of the shoelace formula for one polygon edge. -/
def cross2 (p q : Int × Int) : Int := p.1 * q.2 - q.1 * p.2

/-- Sum of shoelace edge terms along a vertex list, closing back to `first`. -/
def shoelaceFrom (first : Int × Int) : List (Int × Int) → Int
  | [] => 0
  | [q] => cross2 q first
  | q1 :: q2 :: t => cross2 q1 q2 + shoelaceFrom first (q2 :: t)

/-- Twice the signed polygon area (shoelace formula); `cv2.contourArea` is its
absolute value halved.  Zero for degenerate (collinear or empty) contours. -/
def shoelace2 : List (Int × Int) → Int
  | [] => 0
  | p :: rest => shoelaceFrom p (p :: rest)

/-- Minimum of an integer list (0 on the empty list, unused case). -/
def intMinL : List Int → Int
  | [] => 0
  | x :: xs => xs.foldl min x

/-- Maximum of an integer list (0 on the empty list, unused case). -/
def intMaxL : List Int → Int
  | [] => 0
  | x :: xs => xs.foldl max x

/-- Modelled from the spec: the straight-box branch of the detection
post-processor's `polygon_to_box` (`DBPostProcessor` is absent from the
sources; only its test is present): "compute and return
(xmin, ymin, xmax, ymax) as the bounding box of the points". -/
def polygon_to_box (ct : List (Int × Int)) : List Int :=
  [intMinL (ct.map Prod.fst), intMinL (ct.map Prod.snd),
   intMaxL (ct.map Prod.fst), intMaxL (ct.map Prod.snd)]

/-- Modelled from the spec: the per-map body of the detection post-processor's
`__call__` in the `assume_straight_pages` configuration: "filter out
degenerate contours (zero area, fewer than 4 points ...); for each surviving
contour compute a region score ...; drop contours whose score < box_threshold;
convert surviving contours to boxes via polygon_to_box; normalize coordinates
to [0,1] by dividing by map width/height; append the confidence score as the
last column".  The score (mean probability over the contour's interior mask,
rasterised by OpenCV) is the oracle `scoreOf`. -/
def dbPostProcessMap (scoreOf : List (Int × Int) → ℚ) (boxThresh : ℚ)
    (W H : Nat) (contours : List (List (Int × Int))) : List (List ℚ) :=
  contours.filterMap fun ct =>
    if ct.length < 4 then none
    else if shoelace2 ct = 0 then none
    else if scoreOf ct < boxThresh then none
    else
      some [(intMinL (ct.map Prod.fst) : ℚ) / W, (intMinL (ct.map Prod.snd) : ℚ) / H,
            (intMaxL (ct.map Prod.fst) : ℚ) / W, (intMaxL (ct.map Prod.snd) : ℚ) / H,
            scoreOf ct]

/-- Modelled from the spec: the batch entry point of the detection
post-processor's `__call__` (straight boxes).  Binarization plus
`cv2.findContours` is the oracle `extractContours` (external library code),
whose points lie inside the probability map. -/
def dbPostProcess (extractContours : List (List ℚ) → List (List (Int × Int)))
    (scoreOf : List (List ℚ) → List (Int × Int) → ℚ) (boxThresh : ℚ)
    (batch : List (List (List ℚ))) : List (List (List ℚ)) :=
  batch.map fun m =>
    dbPostProcessMap (scoreOf m) boxThresh (imgShape1 m) (imgShape0 m) (extractContours m)

/-- Decidable equality of `Except` results, for evaluating the crop
extractors on concrete inputs. -/
instance {e a : Type} [DecidableEq e] [DecidableEq a] : DecidableEq (Except e a) := fun x y =>
  match x, y with
  | Except.ok x, Except.ok y => decidable_of_iff (x = y) (by simp)
  | Except.error x, Except.error y => decidable_of_iff (x = y) (by simp)
  | Except.ok _, Except.error _ => isFalse (by simp)
  | Except.error _, Except.ok _ => isFalse (by simp)

/-! ### Helper lemmas -/

theorem roundHalfEven_intCast (n : Int) : roundHalfEven (n : ℚ) = n := by
  simp [roundHalfEven]

theorem roundHalfEven_natCast (n : Nat) : roundHalfEven (n : ℚ) = n := by
  have := roundHalfEven_intCast (n : Int)
  simpa using this

theorem npIdx_zero (n : Nat) : npIdx n 0 = 0 := by
  simp [npIdx]

theorem npIdx_self (n : Nat) : npIdx n n = n := by
  have h : ¬ ((n : Int) < 0) := by omega
  simp [npIdx, h]

theorem npSlice_full (l : List α) : npSlice l 0 l.length = l := by
  simp [npSlice, npIdx_zero, npIdx_self]

theorem exists_four_of_length {α : Type} (r : List α) (h : r.length = 4) :
    ∃ a b c d, r = [a, b, c, d] := by
  match r, h with
  | [a, b, c, d], _ => exact ⟨a, b, c, d, rfl⟩

/-! ### Claim theorems -/

/-- C10: for every image and every box array with zero rows, `extract_crops`
and `extract_rcrops` return the empty list without raising, regardless of the
array's column count (the zero-row check precedes column-count validation). -/
theorem extractCrops_zero_rows (img : List (List ℚ)) (dtype : Bool) (cols : Nat)
    (warp : List ℚ → Bool → List (List ℚ)) :
    extract_crops img ⟨dtype, cols, []⟩ = Except.ok []
    ∧ extract_rcrops warp img ⟨dtype, cols, []⟩ = Except.ok [] := by
  constructor <;> rfl

/-- C6 counterexample: a (0,7)-shaped box array has column count 7, which is
neither 4 nor 5, yet both crop extractors return the empty list instead of
failing with a validation error. -/
theorem extractCrops_colcheck_cex :
    extract_crops [[(1 : ℚ)]] ⟨false, 7, []⟩ = Except.ok []
    ∧ extract_rcrops (fun _ _ => ([] : List (List ℚ))) [[(1 : ℚ)]] ⟨false, 7, []⟩ =
        Except.ok [] := by
  constructor <;> rfl

/-- C6 (amended): for every image and every box array with AT LEAST ONE ROW,
`extract_crops` fails with a validation error when the column count is not 4
and `extract_rcrops` when it is not 5; the failure does not depend on the
image or on the warp primitive, i.e. it occurs before any cropping work. -/
theorem extractCrops_colcheck (img : List (List ℚ)) (boxes : NpArray)
    (warp : List ℚ → Bool → List (List ℚ)) (h0 : boxes.data ≠ []) :
    (boxes.cols ≠ 4 →
      extract_crops img boxes =
        Except.error "boxes are expected to be relative and in order (xmin, ymin, xmax, ymax)")
    ∧ (boxes.cols ≠ 5 →
      extract_rcrops warp img boxes =
        Except.error "boxes are expected to be relative and in order (x, y, w, h, alpha)") := by
  have hlen : ¬ boxes.data.length = 0 := by simpa using h0
  constructor <;> intro hc <;> simp [extract_crops, extract_rcrops, hlen, hc]

/-- Witness for C6 (amended): a (1,3)-shaped float array is rejected by both
extractors with the respective validation message. -/
theorem extractCrops_colcheck_w :
    extract_crops ([] : List (List ℚ)) ⟨false, 3, [[1, 2, 3]]⟩ =
      Except.error "boxes are expected to be relative and in order (xmin, ymin, xmax, ymax)"
    ∧ extract_rcrops (fun _ _ => ([] : List (List ℚ))) [] ⟨false, 3, [[1, 2, 3]]⟩ =
      Except.error "boxes are expected to be relative and in order (x, y, w, h, alpha)" :=
  ⟨(extractCrops_colcheck [] ⟨false, 3, [[1, 2, 3]]⟩ (fun _ _ => []) (by simp)).1 (by decide),
   (extractCrops_colcheck [] ⟨false, 3, [[1, 2, 3]]⟩ (fun _ _ => []) (by simp)).2 (by decide)⟩

/-- C7: `rotate_boxes` with the default `min_angle = 1` returns its input
unchanged whenever `|angle| < 1` or `|angle| > 89`. -/
theorem rotateBoxes_noop (boxes : List (List ℝ)) (angle : ℝ)
    (h : |angle| < 1 ∨ |angle| > 89) :
    rotate_boxes boxes angle 1 = boxes := by
  have h89 : (90 : ℝ) - 1 = 89 := by norm_num
  rw [rotate_boxes, h89, if_pos h]

/-- Witness for C7 at `angle = 1/2`. -/
theorem rotateBoxes_noop_w :
    rotate_boxes [[0, 0, 1, 1]] (1/2) 1 = [[0, 0, 1, 1]] :=
  rotateBoxes_noop _ _ (Or.inl (by rw [abs_of_nonneg] <;> norm_num))

/-- C3 counterexample: for the straight box (0,0,1,1) and angle 30 (both 30
and -30 are outside the no-op guard band), `rotate_boxes ∘ rotate_boxes` does
not return the original box: the inner call already outputs a 5-column rotated
representation, which the outer call misreads as a straight box, so the result
has 5-entry rows and cannot equal the 4-entry input under any tolerance. -/
theorem rotateBoxes_roundtrip_cex :
    (rotate_boxes (rotate_boxes [[0, 0, 1, 1]] 30 1) (-30) 1).map List.length = [5]
    ∧ rotate_boxes (rotate_boxes [[0, 0, 1, 1]] 30 1) (-30) 1 ≠ [[0, 0, 1, 1]] := by
  have h30 : |(30 : ℝ)| = 30 := abs_of_nonneg (by norm_num)
  have hn30 : |(-30 : ℝ)| = 30 := by rw [abs_neg, h30]
  have hg : ¬ (|(30 : ℝ)| < 1 ∨ |(30 : ℝ)| > 90 - 1) := by rw [h30]; norm_num
  have hg' : ¬ (|(-30 : ℝ)| < 1 ∨ |(-30 : ℝ)| > 90 - 1) := by rw [hn30]; norm_num
  have e1 : rotate_boxes [[0, 0, 1, 1]] 30 1 = [rotRow 30 [0, 0, 1, 1]] := by
    rw [rotate_boxes, if_neg hg]; rfl
  have e2 : rotate_boxes [rotRow 30 [0, 0, 1, 1]] (-30) 1 =
      [rotRow (-30) (rotRow 30 [0, 0, 1, 1])] := by
    rw [rotate_boxes, if_neg hg']; rfl
  rw [e1, e2]
  constructor
  · simp [rotRow]
  · intro h
    have := congrArg (List.map List.length) h
    simp [rotRow] at this

/-- C3 (amended): `rotate_boxes` by an in-band angle followed by the inverse
CENTER rotation — undoing the center rotation by the attached angle and
rebuilding (xmin, ymin, xmax, ymax) from center, width and height
(`unrotate_row`) — recovers every 4-column straight box exactly. -/
theorem rotateBoxes_roundtrip (boxes : List (List ℝ)) (angle : ℝ)
    (hg : ¬ (|angle| < 1 ∨ |angle| > 89))
    (h4 : ∀ r ∈ boxes, r.length = 4) :
    (rotate_boxes boxes angle 1).map unrotate_row = boxes := by
  have h89 : (90 : ℝ) - 1 = 89 := by norm_num
  rw [rotate_boxes, h89, if_neg hg, List.map_map]
  conv_rhs => rw [← List.map_id boxes]
  apply List.map_congr_left
  intro r hr
  obtain ⟨a, b, c, d, rfl⟩ := exists_four_of_length r (h4 r hr)
  have pyth := Real.sin_sq_add_cos_sq (angle * Real.pi / 180)
  simp only [Function.comp_apply, rotRow, unrotate_row, List.getD_cons_zero,
    List.getD_cons_succ, id_eq]
  refine List.ext_getElem (by simp) ?_
  intro i hi hj
  simp at hj
  interval_cases i <;> simp
  · linear_combination ((a + c) / 2 - 1 / 2) * pyth
  · linear_combination ((b + d) / 2 - 1 / 2) * pyth
  · linear_combination ((a + c) / 2 - 1 / 2) * pyth
  · linear_combination ((b + d) / 2 - 1 / 2) * pyth

/-- Witness for C3 (amended) at the box (0,0,1,1) and angle 30. -/
theorem rotateBoxes_roundtrip_w :
    (rotate_boxes [[0, 0, 1, 1]] 30 1).map unrotate_row = [[0, 0, 1, 1]] :=
  rotateBoxes_roundtrip [[0, 0, 1, 1]] 30
    (by rw [show |(30 : ℝ)| = 30 from abs_of_nonneg (by norm_num)]; norm_num)
    (by intro r hr; simp at hr; subst hr; rfl)

/-- C2 (code bug): on a bitmap with zero contours (hence an empty rect list),
`get_bitmap_angle` with its default parameters returns NaN, not 0.0:
`np.std([])` is NaN, `NaN > std_max` is False, so the mean branch runs and
`-np.mean([])` is NaN, which the width/height comparison leaves untouched. -/
theorem getBitmapAngle_empty_nan :
    get_bitmap_angle [] 20 3 = NpFloat.nan ∧ NpFloat.nan ≠ NpFloat.val 0 := by
  constructor
  · rw [get_bitmap_angle]
    simp [npStd, npMean, npGT, npNeg, npAdd]
  · intro h
    exact NpFloat.noConfusion h

theorem roundHalfEven_zero : roundHalfEven 0 = 0 := by
  simp [roundHalfEven]

/-- C5: `extract_crops` on the single full-page relative (float) box
`[[0, 0, 1, 1]]` returns a one-element list whose only element is the image
itself, for every rectangular image. -/
theorem extractCrops_identity {α : Type} (img : List (List α))
    (hrect : ∀ row ∈ img, row.length = imgShape1 img) :
    extract_crops img ⟨false, 4, [[0, 0, 1, 1]]⟩ = Except.ok [img] := by
  have hproj : projectBoxes img (⟨false, 4, [[0, 0, 1, 1]]⟩ : NpArray) =
      [[0, 0, (imgShape1 img : Int), (imgShape0 img : Int)]] := by
    simp [projectBoxes, scaleRow, roundHalfEven_natCast, roundHalfEven_zero]
  rw [extract_crops]
  simp only [hproj]
  have hcrop : cropSlice img [0, 0, (imgShape1 img : Int), (imgShape0 img : Int)] = img := by
    rw [cropSlice]
    simp only [List.getD_cons_zero, List.getD_cons_succ]
    have h1 : npSlice img 0 (imgShape0 img : Int) = img := npSlice_full img
    rw [h1]
    conv_rhs => rw [← List.map_id img]
    apply List.map_congr_left
    intro row hrow
    rw [← hrect row hrow]
    exact npSlice_full row
  simp [hcrop]

/-- Witness for C5 on a concrete 2x2 image. -/
theorem extractCrops_identity_w :
    extract_crops [[(1 : ℚ), 2], [3, 4]] ⟨false, 4, [[0, 0, 1, 1]]⟩ =
      Except.ok [[[(1 : ℚ), 2], [3, 4]]] :=
  extractCrops_identity _ (by decide)

/-- C9: in `extract_crops` with a float-dtype box array, `_boxes[2:] += 1`
increments whole ROWS at index >= 2 (all four rounded coordinates), while rows
0 and 1 get no increment; consequently, on a concrete 4x4 image with the same
box at row indices 1 and 2, the two identical boxes yield different crops. -/
theorem extractCrops_row_increment :
    (∀ (img : List (List ℚ)) (rows : List (List ℚ)) (i : Nat),
        (projectBoxes img ⟨false, 4, rows⟩)[i]? =
          (rows[i]?).map fun r =>
            if i < 2 then (scaleRow (imgShape1 img) (imgShape0 img) r).map roundHalfEven
            else ((scaleRow (imgShape1 img) (imgShape0 img) r).map roundHalfEven).map
              fun z => z + 1)
    ∧ extract_crops [[(1 : ℚ), 2, 3, 4], [5, 6, 7, 8], [9, 10, 11, 12], [13, 14, 15, 16]]
        ⟨false, 4, [[0, 0, 1/2, 1/2], [0, 0, 1/2, 1/2], [0, 0, 1/2, 1/2]]⟩ =
        Except.ok [[[1, 2], [5, 6]], [[1, 2], [5, 6]], [[6, 7], [10, 11]]]
    ∧ ([[(6 : ℚ), 7], [10, 11]] : List (List ℚ)) ≠ [[1, 2], [5, 6]] := by
  refine ⟨?_, ?_, by norm_num⟩
  case refine_2 =>
    norm_num [extract_crops, projectBoxes, scaleRow, roundHalfEven, cropSlice, npSlice, npIdx,
      imgShape0, imgShape1]
    norm_num [show Int.toNat 2 = 2 from rfl, show Int.toNat 3 = 3 from rfl]
  intro img rows i
  rw [projectBoxes]
  simp only [Bool.false_eq_true, if_false]
  set g : List ℚ → List Int :=
    fun r => (scaleRow (imgShape1 img) (imgShape0 img) r).map roundHalfEven with hg
  rw [List.getElem?_append]
  by_cases hlen : i < rows.length
  · by_cases hi : i < 2
    · have hta : i < ((rows.map g).take 2).length := by
        simp [List.length_take]
        omega
      rw [if_pos hta, List.getElem?_take_of_lt hi, List.getElem?_map,
        List.getElem?_eq_getElem hlen]
      simp [hi]
    · have hta : ¬ i < ((rows.map g).take 2).length := by
        simp [List.length_take]
        omega
      rw [if_neg hta, List.getElem?_map, List.getElem?_drop, List.getElem?_map]
      have hidx : 2 + (i - ((rows.map g).take 2).length) = i := by
        simp [List.length_take]
        omega
      rw [hidx, List.getElem?_eq_getElem hlen]
      simp [hi, hg, List.map_map]
  · have hnone : rows[i]? = none := List.getElem?_eq_none (by omega)
    rw [hnone]
    by_cases hta : i < ((rows.map g).take 2).length
    · exfalso
      simp [List.length_take] at hta
      omega
    · rw [if_neg hta, List.getElem?_map, List.getElem?_drop]
      have : (rows.map g)[2 + (i - ((rows.map g).take 2).length)]? = none := by
        apply List.getElem?_eq_none
        simp [List.length_take]
        omega
      rw [this]
      rfl

theorem foldl_min_le_init {α : Type} [LinearOrder α] :
    ∀ (xs : List α) (a : α), xs.foldl min a ≤ a := by
  intro xs
  induction xs with
  | nil => intro a; exact le_refl a
  | cons x xs ih =>
    intro a
    exact le_trans (ih (min a x)) (min_le_left a x)

theorem foldl_min_le_mem {α : Type} [LinearOrder α] :
    ∀ (xs : List α) (a x : α), x ∈ xs → xs.foldl min a ≤ x := by
  intro xs
  induction xs with
  | nil => intro a x hx; cases hx
  | cons y ys ih =>
    intro a x hx
    rcases List.mem_cons.mp hx with h | h
    · subst h
      exact le_trans (foldl_min_le_init ys (min a x)) (min_le_right a x)
    · exact ih (min a y) x h

theorem foldl_min_mem {α : Type} [LinearOrder α] :
    ∀ (xs : List α) (a : α), xs.foldl min a ∈ a :: xs := by
  intro xs
  induction xs with
  | nil => intro a; exact List.mem_singleton.mpr rfl
  | cons x xs ih =>
    intro a
    have h := ih (min a x)
    rcases List.mem_cons.mp h with h | h
    · rcases min_choice a x with hm | hm
      · exact List.mem_cons.mpr (Or.inl (h.trans hm))
      · refine List.mem_cons.mpr (Or.inr ?_)
        exact List.mem_cons.mpr (Or.inl (h.trans hm))
    · exact List.mem_cons.mpr (Or.inr (List.mem_cons.mpr (Or.inr h)))

theorem le_foldl_max_init {α : Type} [LinearOrder α] :
    ∀ (xs : List α) (a : α), a ≤ xs.foldl max a := by
  intro xs
  induction xs with
  | nil => intro a; exact le_refl a
  | cons x xs ih =>
    intro a
    exact le_trans (le_max_left a x) (ih (max a x))

theorem le_foldl_max_mem {α : Type} [LinearOrder α] :
    ∀ (xs : List α) (a x : α), x ∈ xs → x ≤ xs.foldl max a := by
  intro xs
  induction xs with
  | nil => intro a x hx; cases hx
  | cons y ys ih =>
    intro a x hx
    rcases List.mem_cons.mp hx with h | h
    · subst h
      exact le_trans (le_max_right a x) (le_foldl_max_init ys (max a x))
    · exact ih (max a y) x h

theorem listMin_le (l : List ℝ) (p : ℝ) (hp : p ∈ l) : listMin l ≤ p := by
  match l, hp with
  | x :: xs, hp =>
    rcases List.mem_cons.mp hp with h | h
    · subst h; exact foldl_min_le_init xs p
    · exact foldl_min_le_mem xs x p h

theorem listMin_mem (l : List ℝ) (hne : l ≠ []) : listMin l ∈ l := by
  match l, hne with
  | x :: xs, _ => exact foldl_min_mem xs x

theorem intMinL_le (l : List Int) (p : Int) (hp : p ∈ l) : intMinL l ≤ p := by
  match l, hp with
  | x :: xs, hp =>
    rcases List.mem_cons.mp hp with h | h
    · subst h; exact foldl_min_le_init xs p
    · exact foldl_min_le_mem xs x p h

theorem intMinL_mem (l : List Int) (hne : l ≠ []) : intMinL l ∈ l := by
  match l, hne with
  | x :: xs, _ => exact foldl_min_mem xs x

theorem le_intMaxL (l : List Int) (p : Int) (hp : p ∈ l) : p ≤ intMaxL l := by
  match l, hp with
  | x :: xs, hp =>
    rcases List.mem_cons.mp hp with h | h
    · subst h; exact le_foldl_max_init xs p
    · exact le_foldl_max_mem xs x p h

theorem intMaxL_mem (l : List Int) (hne : l ≠ []) : intMaxL l ∈ l := by
  match l, hne with
  | x :: xs, _ =>
    have : ∀ (ys : List Int) (a : Int), ys.foldl max a ∈ a :: ys := by
      intro ys
      induction ys with
      | nil => intro a; exact List.mem_singleton.mpr rfl
      | cons y ys ih =>
        intro a
        have h := ih (max a y)
        rcases List.mem_cons.mp h with h | h
        · rcases max_choice a y with hm | hm
          · exact List.mem_cons.mpr (Or.inl (h.trans hm))
          · exact List.mem_cons.mpr (Or.inr (List.mem_cons.mpr (Or.inl (h.trans hm))))
        · exact List.mem_cons.mpr (Or.inr (List.mem_cons.mpr (Or.inr h)))
    exact this xs x

theorem shoelaceFrom_const_fst (c : Int) (first : Int × Int) (hf : first.1 = c) :
    ∀ (l : List (Int × Int)), (∀ p ∈ l, p.1 = c) → l ≠ [] →
      shoelaceFrom first l = c * (first.2 - (l.headD first).2) := by
  intro l
  induction l with
  | nil => intro _ h; exact absurd rfl h
  | cons q t ih =>
    intro hall _
    cases t with
    | nil =>
      have hq := hall q (List.mem_cons.mpr (Or.inl rfl))
      simp [shoelaceFrom, cross2, hq, hf]
      ring
    | cons q2 t2 =>
      have hstep : shoelaceFrom first (q :: q2 :: t2) =
          cross2 q q2 + shoelaceFrom first (q2 :: t2) := rfl
      have hq := hall q (List.mem_cons.mpr (Or.inl rfl))
      have hq2 := hall q2 (List.mem_cons.mpr (Or.inr (List.mem_cons.mpr (Or.inl rfl))))
      have hall2 : ∀ p ∈ q2 :: t2, p.1 = c := by
        intro p hp
        exact hall p (List.mem_cons.mpr (Or.inr hp))
      rw [hstep, ih hall2 (by simp)]
      simp [cross2, hq, hq2]
      ring

theorem shoelaceFrom_const_snd (c : Int) (first : Int × Int) (hf : first.2 = c) :
    ∀ (l : List (Int × Int)), (∀ p ∈ l, p.2 = c) → l ≠ [] →
      shoelaceFrom first l = c * ((l.headD first).1 - first.1) := by
  intro l
  induction l with
  | nil => intro _ h; exact absurd rfl h
  | cons q t ih =>
    intro hall _
    cases t with
    | nil =>
      have hq := hall q (List.mem_cons.mpr (Or.inl rfl))
      simp [shoelaceFrom, cross2, hq, hf]
      ring
    | cons q2 t2 =>
      have hstep : shoelaceFrom first (q :: q2 :: t2) =
          cross2 q q2 + shoelaceFrom first (q2 :: t2) := rfl
      have hq := hall q (List.mem_cons.mpr (Or.inl rfl))
      have hq2 := hall q2 (List.mem_cons.mpr (Or.inr (List.mem_cons.mpr (Or.inl rfl))))
      have hall2 : ∀ p ∈ q2 :: t2, p.2 = c := by
        intro p hp
        exact hall p (List.mem_cons.mpr (Or.inr hp))
      rw [hstep, ih hall2 (by simp)]
      simp [cross2, hq, hq2]
      ring

theorem shoelace2_zero_of_const_fst (l : List (Int × Int)) (c : Int)
    (h : ∀ p ∈ l, p.1 = c) : shoelace2 l = 0 := by
  cases l with
  | nil => rfl
  | cons p rest =>
    have hp := h p (List.mem_cons.mpr (Or.inl rfl))
    have := shoelaceFrom_const_fst c p hp (p :: rest) h (by simp)
    simp only [shoelace2, this, List.headD_cons]
    ring

theorem shoelace2_zero_of_const_snd (l : List (Int × Int)) (c : Int)
    (h : ∀ p ∈ l, p.2 = c) : shoelace2 l = 0 := by
  cases l with
  | nil => rfl
  | cons p rest =>
    have hp := h p (List.mem_cons.mpr (Or.inl rfl))
    have := shoelaceFrom_const_snd c p hp (p :: rest) h (by simp)
    simp only [shoelace2, this, List.headD_cons]
    ring

theorem minmax_strict_of_shoelace_fst (ct : List (Int × Int))
    (hsl : shoelace2 ct ≠ 0) :
    intMinL (ct.map Prod.fst) < intMaxL (ct.map Prod.fst) := by
  by_contra hcon
  push_neg at hcon
  apply hsl
  apply shoelace2_zero_of_const_fst ct (intMinL (ct.map Prod.fst))
  intro p hp
  have hmem : p.1 ∈ ct.map Prod.fst := List.mem_map.mpr ⟨p, hp, rfl⟩
  have h1 := intMinL_le (ct.map Prod.fst) p.1 hmem
  have h2 := le_intMaxL (ct.map Prod.fst) p.1 hmem
  omega

theorem minmax_strict_of_shoelace_snd (ct : List (Int × Int))
    (hsl : shoelace2 ct ≠ 0) :
    intMinL (ct.map Prod.snd) < intMaxL (ct.map Prod.snd) := by
  by_contra hcon
  push_neg at hcon
  apply hsl
  apply shoelace2_zero_of_const_snd ct (intMinL (ct.map Prod.snd))
  intro p hp
  have hmem : p.2 ∈ ct.map Prod.snd := List.mem_map.mpr ⟨p, hp, rfl⟩
  have h1 := intMinL_le (ct.map Prod.snd) p.2 hmem
  have h2 := le_intMaxL (ct.map Prod.snd) p.2 hmem
  omega

/-- C4 (spec-modelled): on every probability-map batch, every straight box the
detection post-processor returns satisfies 0 ≤ xmin < xmax ≤ 1 and
0 ≤ ymin < ymax ≤ 1 (coordinates normalised to [0,1]), with the confidence
score appended as the last column.  The hypothesis states the contract of the
external contour extractor: contour points are pixel coordinates inside the
map. -/
theorem dbPostProcess_box_invariant
    (extractContours : List (List ℚ) → List (List (Int × Int)))
    (scoreOf : List (List ℚ) → List (Int × Int) → ℚ) (boxThresh : ℚ)
    (batch : List (List (List ℚ)))
    (hbounds : ∀ m ∈ batch, ∀ ct ∈ extractContours m, ∀ p ∈ ct,
      0 ≤ p.1 ∧ p.1 < (imgShape1 m : Int) ∧ 0 ≤ p.2 ∧ p.2 < (imgShape0 m : Int)) :
    ∀ out ∈ dbPostProcess extractContours scoreOf boxThresh batch,
      ∀ box ∈ out, ∃ x0 y0 x1 y1 s : ℚ,
        box = [x0, y0, x1, y1, s]
        ∧ 0 ≤ x0 ∧ x0 < x1 ∧ x1 ≤ 1 ∧ 0 ≤ y0 ∧ y0 < y1 ∧ y1 ≤ 1 := by
  intro out hout box hbox
  rw [dbPostProcess] at hout
  obtain ⟨m, hm, rfl⟩ := List.mem_map.mp hout
  rw [dbPostProcessMap] at hbox
  obtain ⟨ct, hct, hsome⟩ := List.mem_filterMap.mp hbox
  by_cases h1 : ct.length < 4
  · rw [if_pos h1] at hsome
    exact Option.noConfusion hsome
  rw [if_neg h1] at hsome
  by_cases h2 : shoelace2 ct = 0
  · rw [if_pos h2] at hsome
    exact Option.noConfusion hsome
  rw [if_neg h2] at hsome
  by_cases h3 : scoreOf m ct < boxThresh
  · rw [if_pos h3] at hsome
    exact Option.noConfusion hsome
  rw [if_neg h3] at hsome
  have hbox_eq := Option.some.inj hsome
  have hne : ct ≠ [] := by
    intro h
    subst h
    exact h1 (by norm_num)
  have hb := hbounds m hm ct hct
  have hxs_ne : ct.map Prod.fst ≠ [] := by simpa using hne
  have hys_ne : ct.map Prod.snd ≠ [] := by simpa using hne
  obtain ⟨pxm, hpxm, hpxe⟩ := List.mem_map.mp (intMinL_mem _ hxs_ne)
  obtain ⟨pxM, hpxM, hpxE⟩ := List.mem_map.mp (intMaxL_mem _ hxs_ne)
  obtain ⟨pym, hpym, hpye⟩ := List.mem_map.mp (intMinL_mem _ hys_ne)
  obtain ⟨pyM, hpyM, hpyE⟩ := List.mem_map.mp (intMaxL_mem _ hys_ne)
  have hminx0 : 0 ≤ intMinL (ct.map Prod.fst) := hpxe ▸ (hb pxm hpxm).1
  have hmaxxW : intMaxL (ct.map Prod.fst) < (imgShape1 m : Int) := hpxE ▸ (hb pxM hpxM).2.1
  have hminy0 : 0 ≤ intMinL (ct.map Prod.snd) := hpye ▸ (hb pym hpym).2.2.1
  have hmaxyH : intMaxL (ct.map Prod.snd) < (imgShape0 m : Int) := hpyE ▸ (hb pyM hpyM).2.2.2
  have hxlt := minmax_strict_of_shoelace_fst ct h2
  have hylt := minmax_strict_of_shoelace_snd ct h2
  have hWpos : (0 : ℚ) < (imgShape1 m : ℚ) := by
    have : (0 : Int) < (imgShape1 m : Int) := by omega
    exact_mod_cast this
  have hHpos : (0 : ℚ) < (imgShape0 m : ℚ) := by
    have : (0 : Int) < (imgShape0 m : Int) := by omega
    exact_mod_cast this
  refine ⟨_, _, _, _, _, hbox_eq.symm, ?_, ?_, ?_, ?_, ?_, ?_⟩
  · apply div_nonneg _ hWpos.le
    exact_mod_cast hminx0
  · have hq : ((intMinL (ct.map Prod.fst)) : ℚ) < ((intMaxL (ct.map Prod.fst)) : ℚ) := by
      exact_mod_cast hxlt
    have := mul_lt_mul_of_pos_right hq (inv_pos.mpr hWpos)
    simpa [div_eq_mul_inv] using this
  · apply (div_le_one hWpos).mpr
    have : (intMaxL (ct.map Prod.fst) : ℚ) < (imgShape1 m : ℚ) := by exact_mod_cast hmaxxW
    exact this.le
  · apply div_nonneg _ hHpos.le
    exact_mod_cast hminy0
  · have hq : ((intMinL (ct.map Prod.snd)) : ℚ) < ((intMaxL (ct.map Prod.snd)) : ℚ) := by
      exact_mod_cast hylt
    have := mul_lt_mul_of_pos_right hq (inv_pos.mpr hHpos)
    simpa [div_eq_mul_inv] using this
  · apply (div_le_one hHpos).mpr
    have : (intMaxL (ct.map Prod.snd) : ℚ) < (imgShape0 m : ℚ) := by exact_mod_cast hmaxyH
    exact this.le

/-- Witness for C4 on a 3x3 map with one square contour: the single returned
box is [0, 0, 2/3, 2/3, 1/2] and satisfies the invariant. -/
theorem dbPostProcess_box_invariant_w :
    ∃ x0 y0 x1 y1 s : ℚ,
      [(0 : ℚ), 0, 2/3, 2/3, 1/2] = [x0, y0, x1, y1, s]
      ∧ 0 ≤ x0 ∧ x0 < x1 ∧ x1 ≤ 1 ∧ 0 ≤ y0 ∧ y0 < y1 ∧ y1 ≤ 1 := by
  have hres : dbPostProcess (fun _ => [[((0 : Int), (0 : Int)), (2, 0), (2, 2), (0, 2)]])
      (fun _ _ => 1/2) 0 [[[(0 : ℚ), 0, 0], [0, 1, 0], [0, 0, 0]]] =
      [[[(0 : ℚ), 0, 2/3, 2/3, 1/2]]] := by
    norm_num [dbPostProcess, dbPostProcessMap, List.filterMap_cons, shoelace2, shoelaceFrom,
      cross2, intMinL, intMaxL, imgShape0, imgShape1]
  exact dbPostProcess_box_invariant (fun _ => [[((0 : Int), (0 : Int)), (2, 0), (2, 2), (0, 2)]])
    (fun _ _ => 1/2) 0 [[[(0 : ℚ), 0, 0], [0, 1, 0], [0, 0, 0]]] (by decide)
    [[(0 : ℚ), 0, 2/3, 2/3, 1/2]] (by rw [hres]; exact List.mem_singleton.mpr rfl)
    [(0 : ℚ), 0, 2/3, 2/3, 1/2] (List.mem_singleton.mpr rfl)

theorem splitFirst_prefix (sep : List Char) :
    ∀ (pre post : List Char),
      sep.isPrefixOf post = true →
      (∀ k < pre.length, sep.isPrefixOf ((pre ++ post).drop k) = false) →
      splitFirst sep (pre ++ post) = pre := by
  intro pre
  induction pre with
  | nil =>
    intro post hpost _
    cases post with
    | nil => rfl
    | cons c t =>
      show splitFirst sep (c :: t) = []
      rw [splitFirst, if_pos hpost]
  | cons a pre ih =>
    intro post hpost hno
    have h0 := hno 0 (by simp)
    simp only [List.drop_zero, List.cons_append] at h0
    show splitFirst sep (a :: (pre ++ post)) = a :: pre
    rw [splitFirst, if_neg (by simp [h0])]
    have hshift : ∀ k < pre.length, sep.isPrefixOf ((pre ++ post).drop k) = false := by
      intro k hk
      have := hno (k + 1) (by simp; omega)
      simpa using this
    rw [ih post hpost hshift]

theorem splitFirst_no_occur (sep : List Char) :
    ∀ (s : List Char), (∀ k < s.length, sep.isPrefixOf (s.drop k) = false) →
      splitFirst sep s = s := by
  intro s
  induction s with
  | nil => intro _; rfl
  | cons c t ih =>
    intro hno
    have h0 := hno 0 (by simp)
    simp only [List.drop_zero] at h0
    rw [splitFirst, if_neg (by simp [h0])]
    have hshift : ∀ k < t.length, sep.isPrefixOf (t.drop k) = false := by
      intro k hk
      have := hno (k + 1) (by simp; omega)
      simpa using this
    rw [ih hshift]

theorem dropWhile_mem_eos (n : Nat) :
    ∀ (l : List Nat), n ∈ l →
      ∃ rest, l.dropWhile (fun i => i ≠ n) = n :: rest := by
  intro l hl
  induction l with
  | nil => cases hl
  | cons x xs ih =>
    by_cases hx : x = n
    · subst hx
      refine ⟨xs, ?_⟩
      rw [List.dropWhile_cons]
      simp
    · have hm : n ∈ xs := by
        rcases List.mem_cons.mp hl with h | h
        · exact absurd h.symm hx
        · exact h
      obtain ⟨rest, hres⟩ := ih hm
      refine ⟨rest, ?_⟩
      rw [List.dropWhile_cons]
      simp only [hx, decide_not]
      simpa using hres

theorem decodeSeq_append (vocab : List Char) (l1 l2 : List Nat) :
    decodeSeq vocab (l1 ++ l2) = decodeSeq vocab l1 ++ decodeSeq vocab l2 := by
  simp [decodeSeq]

theorem decodeSeq_cons (vocab : List Char) (i : Nat) (l : List Nat) :
    decodeSeq vocab (i :: l) = (embeddingOf vocab).getD i [] ++ decodeSeq vocab l := by
  simp [decodeSeq]

theorem embeddingOf_cons (c : Char) (cs : List Char) :
    embeddingOf (c :: cs) = [c] :: embeddingOf cs := rfl

theorem embeddingOf_getD_eosIdx (vocab : List Char) :
    (embeddingOf vocab).getD vocab.length [] = eosMarker := by
  induction vocab with
  | nil => rfl
  | cons c cs ih =>
    show ((embeddingOf (c :: cs)).getD (cs.length + 1) []) = eosMarker
    rw [embeddingOf_cons, List.getD_cons_succ]
    exact ih

theorem embeddingOf_getD_single (vocab : List Char) (i : Nat) (h : i < vocab.length) :
    ∃ ch, (embeddingOf vocab).getD i [] = [ch] := by
  induction vocab generalizing i with
  | nil => simp at h
  | cons c cs ih =>
    cases i with
    | zero => exact ⟨c, rfl⟩
    | succ j =>
      have hj : j < cs.length := by simpa using h
      obtain ⟨ch, hch⟩ := ih j hj
      refine ⟨ch, ?_⟩
      rw [embeddingOf_cons, List.getD_cons_succ]
      exact hch

theorem argmaxFrom_lt :
    ∀ (l : List ℚ) (bi : Nat) (bv : ℚ) (i : Nat), bi < i →
      argmaxFrom bi bv i l < i + l.length := by
  intro l
  induction l with
  | nil =>
    intro bi bv i h
    simpa [argmaxFrom] using h
  | cons x xs ih =>
    intro bi bv i h
    rw [argmaxFrom]
    by_cases hx : x > bv
    · rw [if_pos hx]
      have := ih i x (i + 1) (by omega)
      simp only [List.length_cons]
      omega
    · rw [if_neg hx]
      have := ih bi bv (i + 1) (by omega)
      simp only [List.length_cons]
      omega

theorem argmaxIdx_lt (v : List ℚ) (hv : v ≠ []) : argmaxIdx v < v.length := by
  match v, hv with
  | x :: xs, _ =>
    have h := argmaxFrom_lt xs 0 x 1 (by omega)
    show argmaxFrom 0 x 1 xs < xs.length + 1
    omega

theorem wordOf_eq_takeWhile (vocab : List Char) (seq : List (List ℚ))
    (heos : vocab.length ∈ seq.map argmaxIdx)
    (hclean : ∀ k <
        (decodeSeq vocab ((seq.map argmaxIdx).takeWhile fun i => i ≠ vocab.length)).length,
      eosMarker.isPrefixOf ((decodeSeq vocab (seq.map argmaxIdx)).drop k) = false) :
    wordOf vocab seq =
      decodeSeq vocab ((seq.map argmaxIdx).takeWhile fun i => i ≠ vocab.length) := by
  obtain ⟨rest, hrest⟩ := dropWhile_mem_eos vocab.length (seq.map argmaxIdx) heos
  have hsplit : seq.map argmaxIdx =
      ((seq.map argmaxIdx).takeWhile fun i => i ≠ vocab.length) ++ (vocab.length :: rest) := by
    conv_lhs => rw [← List.takeWhile_append_dropWhile
      (fun i => decide (i ≠ vocab.length)) (seq.map argmaxIdx)]
    rw [hrest]
  have hdec : decodeSeq vocab (seq.map argmaxIdx) =
      decodeSeq vocab ((seq.map argmaxIdx).takeWhile fun i => i ≠ vocab.length)
        ++ (eosMarker ++ decodeSeq vocab rest) := by
    conv_lhs => rw [hsplit]
    rw [decodeSeq_append, decodeSeq_cons, embeddingOf_getD_eosIdx]
  have hword : wordOf vocab seq = splitFirst eosMarker (decodeSeq vocab (seq.map argmaxIdx)) :=
    rfl
  rw [hword, hdec]
  apply splitFirst_prefix
  · rw [List.isPrefixOf_iff_prefix]
    exact List.prefix_append _ _
  · intro k hk
    have h := hclean k hk
    rwa [hdec] at h

/-- C1 (amended): for sequence batches in which the argmax hits the EOS index
(= vocab length) at some timestep, the post-processor returns, per sequence,
the pair of (a) the argmax decode strictly before the first EOS — provided the
marker string cannot be spelled before it — and (b) the minimum gathered
softmax probability over ALL timesteps: the minimum is characterised as a
lower bound of every per-timestep probability (including those AFTER the first
EOS) that is attained at some timestep. -/
theorem recognition_postprocess_eos (vocab : List Char) (logits : List (List (List ℚ)))
    (hne : ∀ seq ∈ logits, seq ≠ [])
    (heos : ∀ seq ∈ logits, vocab.length ∈ seq.map argmaxIdx)
    (hclean : ∀ seq ∈ logits,
      ∀ k <
        (decodeSeq vocab ((seq.map argmaxIdx).takeWhile fun i => i ≠ vocab.length)).length,
        eosMarker.isPrefixOf ((decodeSeq vocab (seq.map argmaxIdx)).drop k) = false) :
    recognitionPostProcess vocab logits =
      logits.map (fun seq =>
        (decodeSeq vocab ((seq.map argmaxIdx).takeWhile fun i => i ≠ vocab.length),
         confOf seq))
    ∧ ∀ seq ∈ logits,
        (∀ p ∈ seq.map gatherProb, confOf seq ≤ p) ∧ confOf seq ∈ seq.map gatherProb := by
  constructor
  · rw [recognitionPostProcess]
    apply List.map_congr_left
    intro seq hseq
    rw [wordOf_eq_takeWhile vocab seq (heos seq hseq) (hclean seq hseq)]
  · intro seq hseq
    refine ⟨fun p hp => listMin_le _ p hp, ?_⟩
    apply listMin_mem
    simp [hne seq hseq]

/-- Witness for C1 (amended): logits encoding "cat", then EOS, then a padding
timestep, over the vocabulary c,a,t (EOS index 3). -/
theorem recognition_postprocess_eos_w :
    recognitionPostProcess ['c', 'a', 't']
        [[[1, 0, 0, 0], [0, 1, 0, 0], [0, 0, 1, 0], [0, 0, 0, 1], [0, 0, 0, 0]]] =
      [[[(1 : ℚ), 0, 0, 0], [0, 1, 0, 0], [0, 0, 1, 0], [0, 0, 0, 1], [0, 0, 0, 0]]].map
        (fun seq =>
          (decodeSeq ['c', 'a', 't']
            ((seq.map argmaxIdx).takeWhile fun i => i ≠ (['c', 'a', 't'] : List Char).length),
           confOf seq))
    ∧ ∀ seq ∈ [[[(1 : ℚ), 0, 0, 0], [0, 1, 0, 0], [0, 0, 1, 0], [0, 0, 0, 1], [0, 0, 0, 0]]],
        (∀ p ∈ seq.map gatherProb, confOf seq ≤ p) ∧ confOf seq ∈ seq.map gatherProb :=
  recognition_postprocess_eos ['c', 'a', 't'] _ (by decide) (by decide) (by decide)

theorem exp_one_div_gt_half : (1 : ℝ) / 2 ≤ Real.exp 1 / (Real.exp 1 + 1) := by
  have he : (1 : ℝ) < Real.exp 1 := by
    have h := Real.exp_lt_exp.mpr (show (0 : ℝ) < 1 by norm_num)
    rwa [Real.exp_zero] at h
  have hpos : (0 : ℝ) < Real.exp 1 + 1 := by positivity
  rw [div_le_div_iff₀ (by norm_num) hpos]
  linarith

/-- C1 counterexample: with vocabulary consisting of the single character a
(EOS index 1) and the three-timestep logits a, EOS, pad, the post-processor
returns text "a" (as the claim says) but confidence 1/2, the softmax argmax
probability of the PAD timestep AFTER the first EOS, whereas the claim's
formula — minimum over the timesteps up to and including the first EOS — gives
exp 1 / (exp 1 + 1) ≠ 1/2.  Timesteps after the first EOS therefore do affect
the returned confidence. -/
theorem recognition_conf_cex :
    (recognitionPostProcess ['a'] [[[1, 0], [0, 1], [0, 0]]]).map Prod.snd = [1/2]
    ∧ (recognitionPostProcess ['a'] [[[1, 0], [0, 1], [0, 0]]]).map Prod.fst = [['a']]
    ∧ specConfUpToEos ['a'] [[(1 : ℚ), 0], [0, 1], [0, 0]] = Real.exp 1 / (Real.exp 1 + 1)
    ∧ Real.exp 1 / (Real.exp 1 + 1) ≠ 1/2 := by
  have ha1 : argmaxIdx [(1 : ℚ), 0] = 0 := by decide
  have ha2 : argmaxIdx [(0 : ℚ), 1] = 1 := by decide
  have ha3 : argmaxIdx [(0 : ℚ), 0] = 0 := by decide
  have hg1 : gatherProb [(1 : ℚ), 0] = Real.exp 1 / (Real.exp 1 + 1) := by
    simp [gatherProb, softmax, ha1, Real.exp_zero]
  have hg2 : gatherProb [(0 : ℚ), 1] = Real.exp 1 / (Real.exp 1 + 1) := by
    simp [gatherProb, softmax, ha2, Real.exp_zero]
    ring
  have hg3 : gatherProb [(0 : ℚ), 0] = 1/2 := by
    simp [gatherProb, softmax, ha3, Real.exp_zero]
    norm_num
  have he : (1 : ℝ) < Real.exp 1 := by
    have h := Real.exp_lt_exp.mpr (show (0 : ℝ) < 1 by norm_num)
    rwa [Real.exp_zero] at h
  have hsnd : confOf [[(1 : ℚ), 0], [0, 1], [0, 0]] = 1/2 := by
    simp [confOf, listMin, hg1, hg2, hg3, min_self]
    simpa [one_div] using exp_one_div_gt_half
  refine ⟨?_, ?_, ?_, ?_⟩
  · simp [recognitionPostProcess, hsnd]
  · simp [recognitionPostProcess]
    decide
  · have hfe : firstEosPos ['a'] ([[(1 : ℚ), 0], [0, 1], [0, 0]].map argmaxIdx) = 1 := by
      decide
    rw [specConfUpToEos, hfe]
    simp [listMin, hg1, hg2, min_self]
  · intro h
    have hpos : (0 : ℝ) < Real.exp 1 + 1 := by positivity
    rw [div_eq_iff hpos.ne'] at h
    linarith

theorem flatten_length_of_singletons (l : List (List Char)) (h : ∀ x ∈ l, x.length = 1) :
    l.flatten.length = l.length := by
  induction l with
  | nil => rfl
  | cons x xs ih =>
    have hx := h x (List.mem_cons.mpr (Or.inl rfl))
    have hxs := ih fun y hy => h y (List.mem_cons.mpr (Or.inr hy))
    rw [List.flatten_cons, List.length_append, hx, hxs, List.length_cons]
    omega

/-- C8 counterexample: over the vocabulary <,e,o,s,> (EOS token index 5), five
timesteps whose argmaxes never select the EOS token spell the literal marker
string "<eos>" character by character, and the split on that marker truncates
the returned text to the empty string instead of returning the entire decoded
5-character sequence. -/
theorem recognition_noeos_cex :
    (∀ v ∈ [[(1 : ℚ), 0, 0, 0, 0, 0], [0, 1, 0, 0, 0, 0], [0, 0, 1, 0, 0, 0],
        [0, 0, 0, 1, 0, 0], [0, 0, 0, 0, 1, 0]],
      argmaxIdx v ≠ (['<', 'e', 'o', 's', '>'] : List Char).length)
    ∧ (recognitionPostProcess ['<', 'e', 'o', 's', '>']
        [[[1, 0, 0, 0, 0, 0], [0, 1, 0, 0, 0, 0], [0, 0, 1, 0, 0, 0],
          [0, 0, 0, 1, 0, 0], [0, 0, 0, 0, 1, 0]]]).map Prod.fst = [[]]
    ∧ decodeSeq ['<', 'e', 'o', 's', '>']
        ([[(1 : ℚ), 0, 0, 0, 0, 0], [0, 1, 0, 0, 0, 0], [0, 0, 1, 0, 0, 0],
          [0, 0, 0, 1, 0, 0], [0, 0, 0, 0, 1, 0]].map argmaxIdx) =
        ['<', 'e', 'o', 's', '>'] := by
  refine ⟨by decide, ?_, by decide⟩
  simp only [recognitionPostProcess, List.map_map, List.map_cons, List.map_nil,
    Function.comp_apply]
  decide

/-- C8 (amended): when the per-timestep argmax never selects the EOS token AND
the decoded character sequence does not contain the literal marker string
"<eos>" (which CAN be spelled from ordinary vocabulary characters — hence the
proviso forced by the counterexample), the post-processor returns the entire
decoded sequence as the text, one character per timestep, with no truncation
and no error. -/
theorem recognition_noeos (vocab : List Char) (logits : List (List (List ℚ)))
    (hlen : ∀ seq ∈ logits, ∀ v ∈ seq, v.length = vocab.length + 1)
    (hnoeos : ∀ seq ∈ logits, ∀ v ∈ seq, argmaxIdx v ≠ vocab.length)
    (hclean : ∀ seq ∈ logits,
      ∀ k < (decodeSeq vocab (seq.map argmaxIdx)).length,
        eosMarker.isPrefixOf ((decodeSeq vocab (seq.map argmaxIdx)).drop k) = false) :
    (recognitionPostProcess vocab logits).map Prod.fst =
      logits.map (fun seq => decodeSeq vocab (seq.map argmaxIdx))
    ∧ ∀ seq ∈ logits, (decodeSeq vocab (seq.map argmaxIdx)).length = seq.length := by
  constructor
  · rw [recognitionPostProcess, List.map_map]
    apply List.map_congr_left
    intro seq hseq
    exact splitFirst_no_occur eosMarker _ (hclean seq hseq)
  · intro seq hseq
    have hsing : ∀ x ∈ (seq.map argmaxIdx).map fun i => (embeddingOf vocab).getD i [],
        x.length = 1 := by
      intro x hx
      obtain ⟨i, hi, rfl⟩ := List.mem_map.mp hx
      obtain ⟨v, hv, rfl⟩ := List.mem_map.mp hi
      have h1 : v.length = vocab.length + 1 := hlen seq hseq v hv
      have hvne : v ≠ [] := by
        intro h
        subst h
        simp at h1
      have h2 : argmaxIdx v < vocab.length + 1 := h1 ▸ argmaxIdx_lt v hvne
      have h3 : argmaxIdx v < vocab.length :=
        lt_of_le_of_ne (by omega) (hnoeos seq hseq v hv)
      obtain ⟨ch, hch⟩ := embeddingOf_getD_single vocab _ h3
      simp only [List.getD, List.get?_eq_getElem?] at hch
      simp [hch]
    rw [decodeSeq, flatten_length_of_singletons _ hsing]
    simp

/-- Witness for C8 (amended): three timesteps spelling "cat" with no EOS
argmax anywhere; the whole 3-character decode is returned. -/
theorem recognition_noeos_w :
    (recognitionPostProcess ['c', 'a', 't']
        [[[1, 0, 0, 0], [0, 1, 0, 0], [0, 0, 1, 0]]]).map Prod.fst =
      [[[(1 : ℚ), 0, 0, 0], [0, 1, 0, 0], [0, 0, 1, 0]]].map
        (fun seq => decodeSeq ['c', 'a', 't'] (seq.map argmaxIdx))
    ∧ ∀ seq ∈ [[[(1 : ℚ), 0, 0, 0], [0, 1, 0, 0], [0, 0, 1, 0]]],
        (decodeSeq ['c', 'a', 't'] (seq.map argmaxIdx)).length = seq.length :=
  recognition_noeos ['c', 'a', 't'] _ (by decide) (by decide) (by decide)
